import Mathlib

/-!
Verification of the openclaw-mini agent orchestration core.

The Python sources under `src/openclaw/` are shallowly embedded as Lean
definitions: session-log messages become a small JSON value type, the
stateful loop in `agent/loop.py` becomes a pure function producing an
explicit event trace, and the LLM client is abstracted by the data it
returns (its response per call), which is the interface the spec assigns
to it.
-/

set_option maxRecDepth 40000

namespace OpenClaw

mutual
/-- JSON values as the program stores them in session logs: the subset
built by `agent/loop.py` and `session/compaction.py` (strings, nulls,
arrays, objects).  Objects keep Python's dict insertion order.  Arrays and
objects use their own list types so that all functions below are
structurally recursive (and therefore evaluate inside `decide`/`rfl`). -/
inductive Json where
  | null : Json
  | str : String → Json
  | arr : JsonList → Json
  | obj : JsonObj → Json

/-- A JSON array body. -/
inductive JsonList where
  | nil : JsonList
  | cons : Json → JsonList → JsonList

/-- A JSON object body: ordered key/value pairs. -/
inductive JsonObj where
  | nil : JsonObj
  | cons : String → Json → JsonObj → JsonObj
end

/-- Build a `JsonList` from a Lean list. -/
def JsonList.ofList : List Json → JsonList
  | [] => .nil
  | x :: xs => .cons x (JsonList.ofList xs)

/-- Build a `JsonObj` from a Lean association list. -/
def JsonObj.ofPairs : List (String × Json) → JsonObj
  | [] => .nil
  | (k, v) :: kvs => .cons k v (JsonObj.ofPairs kvs)

/-- Convenience constructor mirroring a Python dict literal. -/
def jobj (kvs : List (String × Json)) : Json :=
  Json.obj (JsonObj.ofPairs kvs)

/-- Convenience constructor mirroring a Python list literal. -/
def jarr (xs : List Json) : Json :=
  Json.arr (JsonList.ofList xs)

/-- First value bound to `key`, i.e. Python `d.get(key)` (dict keys are
unique in every dict the program builds). -/
def JsonObj.find : JsonObj → String → Option Json
  | .nil, _ => none
  | .cons k v tl, key => if k == key then some v else JsonObj.find tl key

/-- Is the array body empty? -/
def JsonList.isNil : JsonList → Bool
  | .nil => true
  | .cons _ _ => false

/-- Is the object body empty? -/
def JsonObj.isNil : JsonObj → Bool
  | .nil => true
  | .cons _ _ _ => false

/-- Hex digit used by the JSON string escaper for control characters. -/
def hexDigit (n : Nat) : String :=
  String.singleton (Char.ofNat (if n < 10 then 48 + n else 87 + n))

/-- Escape one character the way Python `json.dumps(..., ensure_ascii=False)`
does: only the two JSON metacharacters and control characters are escaped. -/
def escapeChar (c : Char) : String :=
  if c = '"' then "\\\""
  else if c = '\\' then "\\\\"
  else if c = '\n' then "\\n"
  else if c = '\t' then "\\t"
  else if c = '\r' then "\\r"
  else if c.toNat = 8 then "\\b"
  else if c.toNat = 12 then "\\f"
  else if c.toNat < 32 then "\\u00" ++ hexDigit (c.toNat / 16) ++ hexDigit (c.toNat % 16)
  else String.singleton c

/-- Escape a whole string for JSON output. -/
def escapeStr (s : String) : String :=
  String.join (s.data.map escapeChar)

/-- Render a JSON string literal (quotes plus escaped body). -/
def dumpsStr (s : String) : String :=
  "\"" ++ escapeStr s ++ "\""

mutual
/-- `json.dumps(v, ensure_ascii=False)` with Python's default separators
`", "` and `": "`. -/
def dumps : Json → String
  | .null => "null"
  | .str s => dumpsStr s
  | .arr xs => "[" ++ dumpsItems xs ++ "]"
  | .obj kvs => "\x7b" ++ dumpsPairs kvs ++ "\x7d"

/-- Renders the comma-separated elements of an array. -/
def dumpsItems : JsonList → String
  | .nil => ""
  | .cons x tl => dumps x ++ dumpsItemsRest tl

/-- Renders `", " ++ element` for every remaining array element. -/
def dumpsItemsRest : JsonList → String
  | .nil => ""
  | .cons x tl => ", " ++ dumps x ++ dumpsItemsRest tl

/-- Renders the comma-separated `"key": value` pairs of an object. -/
def dumpsPairs : JsonObj → String
  | .nil => ""
  | .cons k v tl => dumpsStr k ++ ": " ++ dumps v ++ dumpsPairsRest tl

/-- Renders `", " ++ pair` for every remaining object pair. -/
def dumpsPairsRest : JsonObj → String
  | .nil => ""
  | .cons k v tl => ", " ++ dumpsStr k ++ ": " ++ dumps v ++ dumpsPairsRest tl
end

/-- Embedding of `estimate_tokens` (session/compaction.py): JSON-encode the
message list and divide the character count by 4. -/
def estimate_tokens (messages : List Json) : Nat :=
  (dumps (jarr messages)).length / 4

/-- `m.get(key)` on a message; `None` when the message is not a dict. -/
def jget (m : Json) (key : String) : Option Json :=
  match m with
  | .obj kvs => kvs.find key
  | _ => none

/-- Python truthiness for the JSON values that occur in messages. -/
def truthy : Json → Bool
  | .null => false
  | .str s => !(s == "")
  | .arr xs => !xs.isNil
  | .obj kvs => !kvs.isNil

/-- `m.get("role") == r` for a message dict. -/
def roleIs (m : Json) (r : String) : Bool :=
  match jget m "role" with
  | some (.str s) => s == r
  | _ => false

/-- The condition of the `while` loop in `_sanitize_loaded_messages`
(agent/loop.py): the message is an assistant message whose `tool_calls`
entry is truthy. -/
def isOrphan (m : Json) : Bool :=
  roleIs m "assistant" &&
    (match jget m "tool_calls" with
     | some v => truthy v
     | none => false)

/-- Helper for the sanitizer: repeatedly drop the head while it is an
orphan assistant tool-call message.  Popping from the end of a list is
dropping from the head of its reverse. -/
def dropOrphans : List Json → List Json
  | [] => []
  | m :: rest => if isOrphan m then dropOrphans rest else m :: rest

/-- Embedding of `_sanitize_loaded_messages` (agent/loop.py): pop trailing
assistant messages that carry unanswered `tool_calls`. -/
def sanitize_loaded_messages (messages : List Json) : List Json :=
  (dropOrphans messages.reverse).reverse

/-- Does the list end with an orphan assistant tool-call message? -/
def endsOrphan (l : List Json) : Bool :=
  match l.getLast? with
  | some m => isOrphan m
  | none => false

theorem dropOrphans_suffix (l : List Json) : dropOrphans l <:+ l := by
  induction l with
  | nil => simp [dropOrphans]
  | cons m rest ih =>
    simp only [dropOrphans]
    cases h : isOrphan m
    · simp [h]
    · simp only [h, if_true]
      exact ih.trans (List.suffix_cons m rest)

theorem dropOrphans_head (l : List Json) :
    ∀ m, (dropOrphans l).head? = some m → isOrphan m = false := by
  induction l with
  | nil => intro m h; simp [dropOrphans] at h
  | cons x rest ih =>
    intro m h
    cases hx : isOrphan x
    · rw [show dropOrphans (x :: rest) = x :: rest by simp [dropOrphans, hx]] at h
      simp only [List.head?_cons, Option.some.injEq] at h
      subst h; exact hx
    · rw [show dropOrphans (x :: rest) = dropOrphans rest by simp [dropOrphans, hx]] at h
      exact ih m h

theorem dropOrphans_maximal (l : List Json) :
    ∀ s, s <:+ l → (∀ m, s.head? = some m → isOrphan m = false) →
      s.length ≤ (dropOrphans l).length := by
  induction l with
  | nil =>
    intro s hs _
    simp [List.suffix_nil.mp hs]
  | cons x rest ih =>
    intro s hs hhead
    cases hx : isOrphan x
    · have : dropOrphans (x :: rest) = x :: rest := by simp [dropOrphans, hx]
      rw [this]
      exact hs.length_le
    · have heq : dropOrphans (x :: rest) = dropOrphans rest := by simp [dropOrphans, hx]
      rw [heq]
      obtain ⟨t, ht⟩ := hs
      cases t with
      | nil =>
        exfalso
        simp only [List.nil_append] at ht
        have := hhead x (by rw [ht]; rfl)
        rw [hx] at this
        exact Bool.true_eq_false.mp this
      | cons a t2 =>
        have ht2 : t2 ++ s = rest := by
          have := ht
          simp only [List.cons_append] at this
          exact (List.cons.injEq _ _ _ _ ▸ this).2
        exact ih s ⟨t2, ht2⟩ hhead

theorem dropOrphans_idem (l : List Json) :
    dropOrphans (dropOrphans l) = dropOrphans l := by
  induction l with
  | nil => rfl
  | cons x rest ih =>
    cases hx : isOrphan x <;> simp [dropOrphans, hx, ih]

/-- C2: `_sanitize_loaded_messages x` is the longest prefix of `x` not
ending in an assistant message with a non-empty (truthy) `tool_calls`
field: it is a prefix of `x`, it does not end with such a message, every
prefix of `x` not ending with such a message is at most as long, and the
function is idempotent. -/
theorem c2_sanitize_maximality (x : List Json) :
    sanitize_loaded_messages x <+: x ∧
    endsOrphan (sanitize_loaded_messages x) = false ∧
    (∀ p, p <+: x → endsOrphan p = false →
      p.length ≤ (sanitize_loaded_messages x).length) ∧
    sanitize_loaded_messages (sanitize_loaded_messages x) =
      sanitize_loaded_messages x := by
  refine ⟨?_, ?_, ?_, ?_⟩
  · show (dropOrphans x.reverse).reverse <+: x
    exact List.reverse_suffix.mp (by simpa using dropOrphans_suffix x.reverse)
  · unfold sanitize_loaded_messages endsOrphan
    rw [List.getLast?_eq_head?_reverse, List.reverse_reverse]
    cases hh : (dropOrphans x.reverse).head? with
    | none => rfl
    | some m => exact dropOrphans_head x.reverse m hh
  · intro p hp hend
    have hs : p.reverse <:+ x.reverse := List.reverse_suffix.mpr hp
    have hhead : ∀ m, p.reverse.head? = some m → isOrphan m = false := by
      intro m hm
      rw [← List.getLast?_eq_head?_reverse] at hm
      unfold endsOrphan at hend
      rw [hm] at hend
      exact hend
    have := dropOrphans_maximal x.reverse p.reverse hs hhead
    simpa [sanitize_loaded_messages] using this
  · unfold sanitize_loaded_messages
    rw [List.reverse_reverse, dropOrphans_idem]

/-- A user message as `run_agent_turn` builds it. -/
def mkUserMsg (text : String) : Json :=
  jobj [("role", Json.str "user"), ("content", Json.str text)]

/-- Concrete assistant message with an unanswered tool call (for witnesses
and counterexamples). -/
def aTC0 : Json := jobj [("role", Json.str "assistant"), ("content", Json.null),
  ("tool_calls", jarr [jobj [("id", Json.str "c1")]])]

/-- Concrete user message. -/
def uMsg0 : Json := mkUserMsg "q"

/-- Witness for C2 at a concrete log `[user, assistant-with-tool-calls]`:
the theorem's maximality clause applied to the prefix `[user]`. -/
theorem c2_witness :
    sanitize_loaded_messages [uMsg0, aTC0] <+: [uMsg0, aTC0] ∧
    [uMsg0].length ≤ (sanitize_loaded_messages [uMsg0, aTC0]).length := by
  refine ⟨(c2_sanitize_maximality [uMsg0, aTC0]).1, ?_⟩
  exact (c2_sanitize_maximality [uMsg0, aTC0]).2.2.1 [uMsg0] ⟨[aTC0], rfl⟩ (by decide)

/-! ## Compaction (session/compaction.py) -/

/-- `messages[i].get("role") == "user"`, false out of range. -/
def isUserAt (msgs : List Json) (i : Nat) : Bool :=
  match msgs[i]? with
  | some m => roleIs m "user"
  | none => false

/-- The forward scan `for i in range(start, len(messages))` of
`_split_messages`, searching for the first user message.  The fuel
argument makes the recursion structural; the wrapper passes exactly
`len - start`, the number of loop iterations. -/
def fwdSearchFrom (msgs : List Json) : Nat → Nat → Option Nat
  | 0, _ => none
  | fuel + 1, i =>
    if i < msgs.length then
      if isUserAt msgs i then some i else fwdSearchFrom msgs fuel (i + 1)
    else none

/-- Forward user-message search from index `i` to the end. -/
def fwdSearch (msgs : List Json) (i : Nat) : Option Nat :=
  fwdSearchFrom msgs (msgs.length - i) i

/-- The backward scan `for i in range(mid, 0, -1)` of `_split_messages`:
it visits `mid, mid-1, …, 1` and never index 0. -/
def bwdSearch (msgs : List Json) : Nat → Option Nat
  | 0 => none
  | i + 1 => if isUserAt msgs (i + 1) then some (i + 1) else bwdSearch msgs i

/-- The split index chosen by `_split_messages` (session/compaction.py):
first user message at or after the midpoint, else backward search from the
midpoint (stopping at index 1), else the midpoint. -/
def splitIdx (msgs : List Json) : Nat :=
  match fwdSearch msgs (msgs.length / 2) with
  | some i => i
  | none =>
    match bwdSearch msgs (msgs.length / 2) with
    | some i => i
    | none => msgs.length / 2

/-- Embedding of `_split_messages`: `(messages[:split], messages[split:])`. -/
def split_messages (msgs : List Json) : List Json × List Json :=
  (msgs.take (splitIdx msgs), msgs.drop (splitIdx msgs))

/-- The summary message `compact` prepends to the recent half. -/
def mkSummaryMsg (oldLen : Nat) (summary : String) : Json :=
  jobj [("role", Json.str "user"),
        ("content", Json.str ("[Conversation summary of " ++ toString oldLen ++
          " earlier messages]\n\n" ++ summary))]

/-- Embedding of `compact` (session/compaction.py).  The LLM client is
abstracted by the summary content of the response it returns: `none`
models a null `message.content`, which the code replaces with
"(empty summary)". -/
def compact (msgs : List Json) (summaryContent : Option String) (threshold : Nat) :
    List Json :=
  if estimate_tokens msgs < threshold then msgs
  else
    let old := (split_messages msgs).1
    if old.isEmpty then msgs
    else
      mkSummaryMsg old.length (summaryContent.getD "(empty summary)") ::
        (split_messages msgs).2

theorem isUserAt_lt (msgs : List Json) (j : Nat) :
    isUserAt msgs j = true → j < msgs.length := by
  intro h
  by_contra hge
  have hnone : msgs[j]? = none := List.getElem?_eq_none (by omega)
  simp [isUserAt, hnone] at h

theorem fwdSearchFrom_eq_some (msgs : List Json) :
    ∀ fuel i j, msgs.length ≤ i + fuel → i ≤ j → isUserAt msgs j = true →
      (∀ k, i ≤ k → k < j → isUserAt msgs k = false) →
      fwdSearchFrom msgs fuel i = some j := by
  intro fuel
  induction fuel with
  | zero =>
    intro i j hlen hij hj _
    exact absurd (isUserAt_lt msgs j hj) (by omega)
  | succ fuel ih =>
    intro i j hlen hij hj hk
    have hjlt := isUserAt_lt msgs j hj
    have hi : i < msgs.length := by omega
    rcases Nat.eq_or_lt_of_le hij with heq | hlt
    · subst heq
      simp [fwdSearchFrom, hi, hj]
    · have hifalse : isUserAt msgs i = false := hk i le_rfl hlt
      simp only [fwdSearchFrom, if_pos hi, hifalse, Bool.false_eq_true, if_false]
      exact ih (i + 1) j (by omega) (by omega) hj (fun k h1 h2 => hk k (by omega) h2)

theorem fwdSearchFrom_eq_none (msgs : List Json) :
    ∀ fuel i, (∀ k, i ≤ k → isUserAt msgs k = false) →
      fwdSearchFrom msgs fuel i = none := by
  intro fuel
  induction fuel with
  | zero => intro i _; rfl
  | succ fuel ih =>
    intro i hk
    by_cases hi : i < msgs.length
    · have h0 : isUserAt msgs i = false := hk i le_rfl
      simp only [fwdSearchFrom, if_pos hi, h0, Bool.false_eq_true, if_false]
      exact ih (i + 1) (fun k h1 => hk k (by omega))
    · simp [fwdSearchFrom, hi]

theorem fwdSearch_eq_some (msgs : List Json) (i j : Nat) (hij : i ≤ j)
    (hj : isUserAt msgs j = true)
    (hk : ∀ k, i ≤ k → k < j → isUserAt msgs k = false) :
    fwdSearch msgs i = some j := by
  have := isUserAt_lt msgs j hj
  exact fwdSearchFrom_eq_some msgs (msgs.length - i) i j (by omega) hij hj hk

theorem fwdSearch_eq_none (msgs : List Json) (i : Nat)
    (h : ∀ k, i ≤ k → isUserAt msgs k = false) : fwdSearch msgs i = none :=
  fwdSearchFrom_eq_none msgs (msgs.length - i) i h

theorem bwdSearch_eq_some (msgs : List Json) :
    ∀ k j, 1 ≤ j → j ≤ k → isUserAt msgs j = true →
      (∀ l, j < l → l ≤ k → isUserAt msgs l = false) →
      bwdSearch msgs k = some j := by
  intro k
  induction k with
  | zero => intro j h1 h2 _ _; omega
  | succ k ih =>
    intro j h1 h2 hj hl
    by_cases hjk : j = k + 1
    · subst hjk
      simp [bwdSearch, hj]
    · have hlt : j ≤ k := by omega
      have htop : isUserAt msgs (k + 1) = false := hl (k + 1) (by omega) le_rfl
      simp only [bwdSearch, htop, Bool.false_eq_true, if_false]
      exact ih j h1 hlt hj (fun l hl1 hl2 => hl l hl1 (by omega))

theorem bwdSearch_eq_none (msgs : List Json) :
    ∀ k, (∀ j, 1 ≤ j → j ≤ k → isUserAt msgs j = false) →
      bwdSearch msgs k = none := by
  intro k
  induction k with
  | zero => intro _; rfl
  | succ k ih =>
    intro h
    have htop : isUserAt msgs (k + 1) = false := h (k + 1) (by omega) le_rfl
    simp only [bwdSearch, htop, Bool.false_eq_true, if_false]
    exact ih (fun j h1 h2 => h j h1 (by omega))

/-- C4 amended: the split point is the first index `i ≥ ⌊len/2⌋` whose
message has role user; failing that, the nearest user-message index found
searching backward from the midpoint **down to index 1** (index 0 is never
a split point); if no user message exists at any index `≥ 1`, the split is
at the midpoint; `_split_messages` returns `(msgs[:split], msgs[split:])`;
and whenever the old part is empty, `compact` returns `msgs` unchanged. -/
theorem c4_split_characterization (msgs : List Json) :
    (∀ j, msgs.length / 2 ≤ j → isUserAt msgs j = true →
      (∀ k, msgs.length / 2 ≤ k → k < j → isUserAt msgs k = false) →
      splitIdx msgs = j) ∧
    ((∀ j, msgs.length / 2 ≤ j → isUserAt msgs j = false) →
      ∀ j, 1 ≤ j → j ≤ msgs.length / 2 → isUserAt msgs j = true →
      (∀ k, j < k → k ≤ msgs.length / 2 → isUserAt msgs k = false) →
      splitIdx msgs = j) ∧
    ((∀ j, 1 ≤ j → isUserAt msgs j = false) →
      splitIdx msgs = msgs.length / 2) ∧
    split_messages msgs = (msgs.take (splitIdx msgs), msgs.drop (splitIdx msgs)) ∧
    (∀ c t, ((split_messages msgs).1).isEmpty = true → compact msgs c t = msgs) := by
  refine ⟨?_, ?_, ?_, rfl, ?_⟩
  · intro j hmid hj hk
    have hfwd := fwdSearch_eq_some msgs (msgs.length / 2) j hmid hj hk
    simp [splitIdx, hfwd]
  · intro hno j h1 hjmid hj hk
    have hfwd : fwdSearch msgs (msgs.length / 2) = none :=
      fwdSearch_eq_none msgs _ (fun k hk2 => hno k hk2)
    have hbwd := bwdSearch_eq_some msgs (msgs.length / 2) j h1 hjmid hj
      (fun l hl1 hl2 => hk l hl1 hl2)
    simp [splitIdx, hfwd, hbwd]
  · intro hno
    by_cases h0 : isUserAt msgs 0 = true
    · by_cases hm : msgs.length / 2 = 0
      · have hfwd := fwdSearch_eq_some msgs (msgs.length / 2) 0 (by omega) h0
          (fun k hk1 hk2 => by omega)
        rw [hm] at hfwd
        simp [splitIdx, hm, hfwd]
      · have hfwd : fwdSearch msgs (msgs.length / 2) = none :=
          fwdSearch_eq_none msgs _ (fun k hk2 => hno k (by omega))
        have hbwd : bwdSearch msgs (msgs.length / 2) = none :=
          bwdSearch_eq_none msgs _ (fun j h1 _ => hno j h1)
        simp [splitIdx, hfwd, hbwd]
    · have hall : ∀ k, 0 ≤ k → isUserAt msgs k = false := by
        intro k _
        match k with
        | 0 => exact Bool.not_eq_true _ ▸ (by simpa using h0)
        | k + 1 => exact hno (k + 1) (by omega)
      have hfwd : fwdSearch msgs (msgs.length / 2) = none :=
        fwdSearch_eq_none msgs _ (fun k hk2 => hall k (by omega))
      have hbwd : bwdSearch msgs (msgs.length / 2) = none :=
        bwdSearch_eq_none msgs _ (fun j h1 _ => hno j h1)
      simp [splitIdx, hfwd, hbwd]
  · intro c t hemp
    unfold compact
    by_cases hest : estimate_tokens msgs < t
    · simp [hest]
    · simp [hest, hemp]

/-- Split point as claim C4 reads: the backward search from the midpoint
may also return index 0.  (Formalization of the claimed rule, used only to
exhibit the divergence; not part of the code model.) -/
def claimBwdSearch (msgs : List Json) : Nat → Option Nat
  | 0 => if isUserAt msgs 0 then some 0 else none
  | i + 1 => if isUserAt msgs (i + 1) then some (i + 1) else claimBwdSearch msgs i

/-- Split index under claim C4's reading of the backward search. -/
def claimSplitIdx (msgs : List Json) : Nat :=
  match fwdSearch msgs (msgs.length / 2) with
  | some i => i
  | none =>
    match claimBwdSearch msgs (msgs.length / 2) with
    | some i => i
    | none => msgs.length / 2

/-- Concrete assistant text message (no tool calls). -/
def aMsg0 : Json := jobj [("role", Json.str "assistant"), ("content", Json.str "x")]

/-- C4 counterexample: in `[user, assistant, assistant, assistant]` the only
user message sits at index 0.  The claimed rule (nearest user index found
searching backward from the midpoint) would split at 0, but
`_split_messages` splits at the midpoint 2 because its backward loop
`range(mid, 0, -1)` never reaches index 0. -/
theorem c4_counterexample :
    splitIdx [uMsg0, aMsg0, aMsg0, aMsg0] = 2 ∧
    claimSplitIdx [uMsg0, aMsg0, aMsg0, aMsg0] = 0 ∧
    isUserAt [uMsg0, aMsg0, aMsg0, aMsg0] 0 = true := by decide

/-- Witness for C4's amended characterization at `[user, assistant, user,
assistant]`: the first user message at or after the midpoint 2 is index 2. -/
theorem c4_witness : splitIdx [uMsg0, aMsg0, uMsg0, aMsg0] = 2 :=
  (c4_split_characterization [uMsg0, aMsg0, uMsg0, aMsg0]).1 2 (by decide)
    (by decide)
    (fun k h1 h2 => by simp only [List.length_cons, List.length_nil] at h1; omega)

/-- C3 amended: below the threshold `compact` is the identity; at or above
it (with non-empty old half) the result is a single summary message
prepended to the recent tail `msgs[split:]` verbatim; and the estimate
strictly decreases whenever the JSON encoding of the returned list is at
least 4 characters shorter than that of `msgs` — which the code does not
itself guarantee (see the counterexample: a long summary can grow the
estimate). -/
theorem c3_compact_threshold (msgs : List Json) (c : Option String) (t : Nat) :
    (estimate_tokens msgs < t → compact msgs c t = msgs) ∧
    (t ≤ estimate_tokens msgs → ((split_messages msgs).1).isEmpty = false →
      (∃ m, compact msgs c t = m :: (split_messages msgs).2) ∧
      ((dumps (jarr (compact msgs c t))).length + 4 ≤ (dumps (jarr msgs)).length →
        estimate_tokens (compact msgs c t) < estimate_tokens msgs)) := by
  constructor
  · intro h
    simp [compact, h]
  · intro hge hemp
    have hnot : ¬ estimate_tokens msgs < t := by omega
    constructor
    · refine ⟨mkSummaryMsg ((split_messages msgs).1).length
        (c.getD "(empty summary)"), ?_⟩
      simp [compact, hnot, hemp]
    · intro hlen
      simp only [estimate_tokens] at *
      omega

/-- A long summary string for the C3 counterexample. -/
def longSummary : String :=
  String.mk (List.replicate 400 'x')

/-- Concrete four-message conversation for the C3 counterexample. -/
def ce3msgs : List Json :=
  [mkUserMsg "aa", jobj [("role", Json.str "assistant"), ("content", Json.str "bb")],
   mkUserMsg "cc", jobj [("role", Json.str "assistant"), ("content", Json.str "dd")]]

/-- C3 counterexample: with threshold 1 the compactor triggers on
`ce3msgs` (estimate ≥ 1, non-empty old half), but when the LLM returns a
400-character summary the estimate of the result is **not** strictly less
than the estimate of the input — it grows.  The unconditional
strict-decrease part of the claim is false. -/
theorem c3_counterexample :
    1 ≤ estimate_tokens ce3msgs ∧
    ((split_messages ce3msgs).1).isEmpty = false ∧
    ¬ estimate_tokens (compact ce3msgs (some longSummary) 1) <
        estimate_tokens ce3msgs := by decide

/-- Witness for C3: the identity below the threshold at a concrete
below-threshold input, and the verbatim-tail clause at a concrete
above-threshold input. -/
theorem c3_witness :
    compact [uMsg0] none 1000 = [uMsg0] ∧
    (∃ m, compact ce3msgs (some "s") 1 = m :: (split_messages ce3msgs).2) :=
  ⟨(c3_compact_threshold [uMsg0] none 1000).1 (by decide),
   ((c3_compact_threshold ce3msgs (some "s") 1).2 (by decide) (by decide)).1⟩

/-! ## Turn loop (agent/loop.py) -/

/-- An OpenAI tool call as the client returns it: `tc.id`,
`tc.function.name`, `tc.function.arguments` (a JSON text). -/
structure ToolCall where
  id : String
  name : String
  arguments : String
deriving DecidableEq

/-- One LLM chat response (`response.choices[0]`): message content, the
`tool_calls` list (empty models `None`), and `finish_reason`. -/
structure Response where
  content : Option String
  tool_calls : List ToolCall
  finish_reason : String

/-- Embedding of `_serialize_tool_calls` for a single call. -/
def serializeToolCall (tc : ToolCall) : Json :=
  jobj [("id", Json.str tc.id), ("type", Json.str "function"),
        ("function", jobj [("name", Json.str tc.name),
                           ("arguments", Json.str tc.arguments)])]

/-- Embedding of `_serialize_assistant_message`: role and content always,
`tool_calls` only when the response carries a non-empty list. -/
def serializeAssistantMessage (r : Response) : Json :=
  jobj ([("role", Json.str "assistant"),
         ("content", match r.content with | some s => Json.str s | none => Json.null)] ++
    (if r.tool_calls.isEmpty then []
     else [("tool_calls", jarr (r.tool_calls.map serializeToolCall))]))

/-- The tool result message built in the loop body. -/
def mkToolResultMsg (callId result : String) : Json :=
  jobj [("role", Json.str "tool"), ("tool_call_id", Json.str callId),
        ("content", Json.str result)]

/-- The loop's tool-call detection: `finish_reason` is one of the two
accepted spellings AND `tool_calls` is non-empty. -/
def hasToolCalls (r : Response) : Bool :=
  (r.finish_reason == "tool_calls" || r.finish_reason == "tool_use") &&
    !r.tool_calls.isEmpty

/-- Observable events of one `run_agent_turn` invocation, in order. -/
inductive Event where
  | compactCall : Event
  | overwrite : List Json → Event
  | llm : Nat → Event
  | exec : String → String → Event
  | append : Json → Event

/-- The `for _ in range(max_turns)` loop of `run_agent_turn`.  `respond k`
is the client's k-th response (`none` models a raised transport error);
`execF` abstracts `registry.execute` applied to the parsed arguments.
Returns the event trace (LLM request, tool executions in declaration
order, then the appends: assistant message first, then one tool message
per call) and the outcome (`Except.error ()` is the propagated transport
exception). -/
def runLoop (respond : Nat → Option Response) (execF : ToolCall → String) :
    Nat → Nat → List Event × Except Unit String
  | 0, _ => ([], Except.ok "(max tool turns reached)")
  | fuel + 1, k =>
    match respond k with
    | none => ([Event.llm k], Except.error ())
    | some r =>
      if hasToolCalls r then
        let execs := r.tool_calls.map (fun tc => Event.exec tc.name tc.id)
        let toolMsgs := r.tool_calls.map (fun tc => mkToolResultMsg tc.id (execF tc))
        let rest := runLoop respond execF fuel (k + 1)
        (Event.llm k :: execs ++ Event.append (serializeAssistantMessage r) ::
          toolMsgs.map Event.append ++ rest.1, rest.2)
      else
        ([Event.llm k, Event.append (serializeAssistantMessage r)],
          Except.ok (r.content.getD ""))

/-- Events of the compaction step at the head of `run_agent_turn`: the
summarizer LLM request fires only when `compact` actually reaches its
client call (estimate at or above threshold and non-empty old half). -/
def compactionEvents (ms : List Json) (threshold : Nat) : List Event :=
  if estimate_tokens ms < threshold then []
  else if ((split_messages ms).1).isEmpty then []
  else [Event.compactCall]

/-- Events preceding the user append in `run_agent_turn`: when the
estimate reaches the threshold, the compaction call (if any) and the
`session_store.save` overwrite. -/
def preEvents (ms0 : List Json) (summary : Option String) (threshold : Nat) :
    List Event :=
  if estimate_tokens ms0 < threshold then []
  else compactionEvents ms0 threshold ++
    [Event.overwrite (compact ms0 summary threshold)]

/-- Embedding of `run_agent_turn` (agent/loop.py): sanitize the loaded
history, compact when the estimate reaches the threshold (overwriting the
log), append the user message, then run the LLM/tool loop.  Produces the
full event trace and the outcome. -/
def run_agent_turn (loaded : List Json) (summary : Option String)
    (respond : Nat → Option Response) (execF : ToolCall → String)
    (userText : String) (maxTurns threshold : Nat) :
    List Event × Except Unit String :=
  let ms0 := sanitize_loaded_messages loaded
  let pre := preEvents ms0 summary threshold
  let loopOut := runLoop respond execF maxTurns 0
  (pre ++ Event.append (mkUserMsg userText) :: loopOut.1, loopOut.2)

/-- Messages appended to the session log by a trace, in order. -/
def persisted (tr : List Event) : List Json :=
  tr.filterMap (fun e => match e with | Event.append m => some m | _ => none)

/-- Number of turn-loop LLM requests in a trace. -/
def llmCount (tr : List Event) : Nat :=
  tr.countP (fun e => match e with | Event.llm _ => true | _ => false)

/-- Tool call ids of the entries of a serialized `tool_calls` array. -/
def toolCallIdsAux : JsonList → List String
  | .nil => []
  | .cons x tl =>
    (match jget x "id" with
     | some (Json.str s) => [s]
     | _ => []) ++ toolCallIdsAux tl

/-- Tool call ids listed in a message's `tool_calls` field. -/
def toolCallIds (m : Json) : List String :=
  match jget m "tool_calls" with
  | some (Json.arr xs) => toolCallIdsAux xs
  | _ => []

/-- The `tool_call_id` field of a message. -/
def toolCallIdOf (m : Json) : Option String :=
  match jget m "tool_call_id" with
  | some (Json.str s) => some s
  | _ => none

theorem roleIs_mkUserMsg (t : String) : roleIs (mkUserMsg t) "user" = true := rfl

theorem roleIs_mkUserMsg_assistant (t : String) :
    roleIs (mkUserMsg t) "assistant" = false := rfl

theorem roleIs_mkUserMsg_tool (t : String) :
    roleIs (mkUserMsg t) "tool" = false := rfl

theorem toolCallIds_mkUserMsg (t : String) : toolCallIds (mkUserMsg t) = [] := rfl

theorem roleIs_mkToolResultMsg (i c : String) :
    roleIs (mkToolResultMsg i c) "tool" = true := rfl

theorem roleIs_mkToolResultMsg_assistant (i c : String) :
    roleIs (mkToolResultMsg i c) "assistant" = false := rfl

theorem toolCallIds_mkToolResultMsg (i c : String) :
    toolCallIds (mkToolResultMsg i c) = [] := rfl

theorem toolCallIdOf_mkToolResultMsg (i c : String) :
    toolCallIdOf (mkToolResultMsg i c) = some i := rfl

theorem roleIs_serializeAssistant (r : Response) :
    roleIs (serializeAssistantMessage r) "assistant" = true := by
  obtain ⟨c, tcs, f⟩ := r
  cases c <;> cases tcs <;> rfl

theorem roleIs_serializeAssistant_tool (r : Response) :
    roleIs (serializeAssistantMessage r) "tool" = false := by
  obtain ⟨c, tcs, f⟩ := r
  cases c <;> cases tcs <;> rfl

theorem toolCallIdsAux_ofList (cs : List ToolCall) :
    toolCallIdsAux (JsonList.ofList (cs.map serializeToolCall)) =
      cs.map (fun tc => tc.id) := by
  induction cs with
  | nil => rfl
  | cons c cs ih =>
    show [c.id] ++ toolCallIdsAux (JsonList.ofList (cs.map serializeToolCall)) = _
    rw [ih]
    rfl

theorem toolCallIds_serializeAssistant (r : Response) :
    toolCallIds (serializeAssistantMessage r) = r.tool_calls.map (fun tc => tc.id) := by
  obtain ⟨c, tcs, f⟩ := r
  cases tcs with
  | nil => cases c <;> rfl
  | cons t ts =>
    cases c with
    | none =>
      show toolCallIdsAux (JsonList.ofList ((t :: ts).map serializeToolCall)) = _
      exact toolCallIdsAux_ofList (t :: ts)
    | some s =>
      show toolCallIdsAux (JsonList.ofList ((t :: ts).map serializeToolCall)) = _
      exact toolCallIdsAux_ofList (t :: ts)

theorem persisted_append_evt (l1 l2 : List Event) :
    persisted (l1 ++ l2) = persisted l1 ++ persisted l2 :=
  List.filterMap_append l1 l2 _

theorem persisted_cons_append (m : Json) (tr : List Event) :
    persisted (Event.append m :: tr) = m :: persisted tr := rfl

theorem persisted_cons_llm (k : Nat) (tr : List Event) :
    persisted (Event.llm k :: tr) = persisted tr := rfl

theorem persisted_map_exec (cs : List ToolCall) :
    persisted (cs.map (fun tc => Event.exec tc.name tc.id)) = [] := by
  induction cs with
  | nil => rfl
  | cons c cs ih => simp [persisted, ih]

theorem persisted_map_append (ms : List Json) :
    persisted (ms.map Event.append) = ms := by
  induction ms with
  | nil => rfl
  | cons m ms ih => simpa [persisted] using ih

theorem llmCount_append_evt (l1 l2 : List Event) :
    llmCount (l1 ++ l2) = llmCount l1 + llmCount l2 := by
  simp [llmCount, List.countP_append]

theorem llmCount_cons_llm (k : Nat) (tr : List Event) :
    llmCount (Event.llm k :: tr) = llmCount tr + 1 := by
  simp [llmCount, List.countP_cons]

theorem llmCount_cons_append (m : Json) (tr : List Event) :
    llmCount (Event.append m :: tr) = llmCount tr := by
  simp [llmCount, List.countP_cons]

theorem llmCount_map_exec (cs : List ToolCall) :
    llmCount (cs.map (fun tc => Event.exec tc.name tc.id)) = 0 := by
  induction cs with
  | nil => rfl
  | cons c cs ih => simp [llmCount, List.countP_cons, ih]

theorem llmCount_map_append (ms : List Json) :
    llmCount (ms.map Event.append) = 0 := by
  induction ms with
  | nil => rfl
  | cons m ms ih => simp [llmCount, List.countP_cons, ih]

theorem mem_preEvents (ms : List Json) (s : Option String) (t : Nat) (e : Event)
    (h : e ∈ preEvents ms s t) :
    e = Event.compactCall ∨ ∃ l, e = Event.overwrite l := by
  unfold preEvents compactionEvents at h
  by_cases h1 : estimate_tokens ms < t
  · simp [h1] at h
  · simp only [h1, if_false] at h
    by_cases h2 : ((split_messages ms).1).isEmpty = true
    · simp [h2] at h
      exact Or.inr ⟨_, h⟩
    · simp [h2] at h
      rcases h with h | h
      · exact Or.inl h
      · exact Or.inr ⟨_, h⟩

theorem persisted_preEvents (ms : List Json) (s : Option String) (t : Nat) :
    persisted (preEvents ms s t) = [] := by
  unfold preEvents compactionEvents
  by_cases h1 : estimate_tokens ms < t
  · simp [h1, persisted]
  · by_cases h2 : ((split_messages ms).1).isEmpty = true
    · simp [h1, h2, persisted]
    · simp [h1, h2, persisted]

/-- Tool-call closure of a persisted log: every assistant message with a
non-empty `tool_calls` list is followed immediately by one tool message
per call, carrying the call ids in declaration order, and the entry after
the last of those (if any) is not a tool message — so there are exactly
that many tool messages. -/
def ClosedLog (p : List Json) : Prop :=
  ∀ i m, p[i]? = some m → roleIs m "assistant" = true → toolCallIds m ≠ [] →
    (∀ j, j < (toolCallIds m).length →
      ∃ t2, p[i + 1 + j]? = some t2 ∧ roleIs t2 "tool" = true ∧
        toolCallIdOf t2 = (toolCallIds m)[j]?) ∧
    (∀ t2, p[i + 1 + (toolCallIds m).length]? = some t2 → roleIs t2 "tool" = false)

theorem ClosedLog_nil : ClosedLog [] := by
  intro i m h
  simp at h

theorem ClosedLog_cons (m : Json) (p : List Json)
    (hm : roleIs m "assistant" = false ∨ toolCallIds m = [])
    (hp : ClosedLog p) : ClosedLog (m :: p) := by
  intro i m2 hi hrole hids
  match i with
  | 0 =>
    rw [List.getElem?_cons_zero, Option.some.injEq] at hi
    subst hi
    rcases hm with hm | hm
    · rw [hrole] at hm; exact absurd hm (by simp)
    · exact absurd hm hids
  | i + 1 =>
    rw [List.getElem?_cons_succ] at hi
    obtain ⟨h1, h2⟩ := hp i m2 hi hrole hids
    constructor
    · intro j hj
      obtain ⟨t2, ht2, htool, hid⟩ := h1 j hj
      refine ⟨t2, ?_, htool, hid⟩
      have harith : i + 1 + 1 + j = (i + 1 + j) + 1 := by omega
      rw [harith, List.getElem?_cons_succ]
      exact ht2
    · intro t2 ht2
      apply h2 t2
      have harith : i + 1 + 1 + (toolCallIds m2).length =
          (i + 1 + (toolCallIds m2).length) + 1 := by omega
      rw [harith, List.getElem?_cons_succ] at ht2
      exact ht2

theorem ClosedLog_cycle (a : Json) (cs : List ToolCall) (execF : ToolCall → String)
    (hids : toolCallIds a = cs.map (fun tc => tc.id))
    (p : List Json) (hp : ClosedLog p)
    (hhead : ∀ t2, p[0]? = some t2 → roleIs t2 "tool" = false) :
    ClosedLog (a :: cs.map (fun tc => mkToolResultMsg tc.id (execF tc)) ++ p) := by
  set tms := cs.map (fun tc => mkToolResultMsg tc.id (execF tc)) with htms
  have hlen : tms.length = cs.length := by simp [htms]
  intro i m hi hrole hids2
  match i with
  | 0 =>
    rw [List.cons_append, List.getElem?_cons_zero, Option.some.injEq] at hi
    subst hi
    constructor
    · intro j hj
      rw [hids] at hj
      simp only [List.length_map] at hj
      have hj2 : j < tms.length := by omega
      have htmsj : tms[j]? = (cs[j]?).map (fun tc => mkToolResultMsg tc.id (execF tc)) := by
        simp [htms]
      have hcsj : cs[j]? = some cs[j] := List.getElem?_eq_getElem hj
      refine ⟨mkToolResultMsg (cs[j]).id (execF cs[j]), ?_, ?_, ?_⟩
      · rw [List.cons_append]
        have : (0 : Nat) + 1 + j = j + 1 := by omega
        rw [this, List.getElem?_cons_succ, List.getElem?_append_left (by omega), htmsj, hcsj]
        rfl
      · exact roleIs_mkToolResultMsg _ _
      · rw [toolCallIdOf_mkToolResultMsg, hids]
        simp [hcsj]
    · intro t2 ht2
      apply hhead t2
      rw [List.cons_append] at ht2
      rw [hids] at ht2
      simp only [List.length_map] at ht2
      have : (0 : Nat) + 1 + cs.length = tms.length + 1 := by omega
      rw [this, List.getElem?_cons_succ, List.getElem?_append_right (by omega)] at ht2
      simpa using ht2
  | i + 1 =>
    rw [List.cons_append, List.getElem?_cons_succ] at hi
    by_cases hcase : i < tms.length
    · exfalso
      rw [List.getElem?_append_left hcase] at hi
      have : tms[i]? = (cs[i]?).map (fun tc => mkToolResultMsg tc.id (execF tc)) := by
        simp [htms]
      rw [this, List.getElem?_eq_getElem (by omega)] at hi
      have hm2 : mkToolResultMsg (cs[i]).id (execF cs[i]) = m := by simpa using hi
      rw [← hm2] at hrole
      rw [roleIs_mkToolResultMsg_assistant] at hrole
      exact absurd hrole (by simp)
    · push_neg at hcase
      rw [List.getElem?_append_right hcase] at hi
      obtain ⟨h1, h2⟩ := hp (i - tms.length) m hi hrole hids2
      constructor
      · intro j hj
        obtain ⟨t2, ht2, htool, hid⟩ := h1 j hj
        refine ⟨t2, ?_, htool, hid⟩
        rw [List.cons_append]
        have : i + 1 + 1 + j = (i + 1 + j) + 1 := by omega
        rw [this, List.getElem?_cons_succ, List.getElem?_append_right (by omega)]
        have : i + 1 + j - tms.length = i - tms.length + 1 + j := by omega
        rw [this]
        exact ht2
      · intro t2 ht2
        apply h2 t2
        rw [List.cons_append] at ht2
        have : i + 1 + 1 + (toolCallIds m).length =
            (i + 1 + (toolCallIds m).length) + 1 := by omega
        rw [this, List.getElem?_cons_succ,
          List.getElem?_append_right (by omega)] at ht2
        have : i + 1 + (toolCallIds m).length - tms.length =
            i - tms.length + 1 + (toolCallIds m).length := by omega
        rw [this] at ht2
        exact ht2

theorem persisted_cycle (k : Nat) (r : Response) (execF : ToolCall → String)
    (rest : List Event) :
    persisted (Event.llm k :: r.tool_calls.map (fun tc => Event.exec tc.name tc.id) ++
      Event.append (serializeAssistantMessage r) ::
      (r.tool_calls.map (fun tc => mkToolResultMsg tc.id (execF tc))).map Event.append ++
      rest) =
    serializeAssistantMessage r ::
      r.tool_calls.map (fun tc => mkToolResultMsg tc.id (execF tc)) ++ persisted rest := by
  simp only [List.cons_append, persisted_cons_llm, persisted_append_evt,
    persisted_map_exec, persisted_cons_append, persisted_map_append,
    List.nil_append]

theorem hasToolCalls_ne_nil (r : Response) (h : hasToolCalls r = true) :
    r.tool_calls ≠ [] := by
  intro hnil
  rw [hasToolCalls, hnil] at h
  simp at h

theorem runLoop_ClosedLog (respond : Nat → Option Response) (execF : ToolCall → String)
    (H : ∀ k r, respond k = some r → r.tool_calls ≠ [] → hasToolCalls r = true) :
    ∀ fuel k, ClosedLog (persisted (runLoop respond execF fuel k).1) ∧
      (∀ t2, (persisted (runLoop respond execF fuel k).1)[0]? = some t2 →
        roleIs t2 "tool" = false) := by
  intro fuel
  induction fuel with
  | zero =>
    intro k
    exact ⟨ClosedLog_nil, by intro t2 h; simp [runLoop, persisted] at h⟩
  | succ fuel ih =>
    intro k
    cases hr : respond k with
    | none =>
      constructor
      · intro i m hi
        simp [runLoop, hr, persisted] at hi
      · intro t2 h
        simp [runLoop, hr, persisted] at h
    | some r =>
      by_cases htc : hasToolCalls r = true
      · have heq : persisted (runLoop respond execF (fuel + 1) k).1 =
            serializeAssistantMessage r ::
              r.tool_calls.map (fun tc => mkToolResultMsg tc.id (execF tc)) ++
              persisted (runLoop respond execF fuel (k + 1)).1 := by
          simp only [runLoop, hr, htc, if_true]
          exact persisted_cycle k r execF _
        rw [heq]
        constructor
        · exact ClosedLog_cycle (serializeAssistantMessage r) r.tool_calls execF
            (toolCallIds_serializeAssistant r) _ (ih (k + 1)).1 (ih (k + 1)).2
        · intro t2 h
          rw [List.cons_append, List.getElem?_cons_zero, Option.some.injEq] at h
          subst h
          exact roleIs_serializeAssistant_tool r
      · have htc2 : hasToolCalls r = false := by
          revert htc; cases hasToolCalls r <;> simp
        have heq : persisted (runLoop respond execF (fuel + 1) k).1 =
            [serializeAssistantMessage r] := by
          simp only [runLoop, hr, htc2, Bool.false_eq_true, if_false]
          rfl
        rw [heq]
        constructor
        · intro i m hi hrole hids
          match i with
          | 0 =>
            rw [List.getElem?_cons_zero, Option.some.injEq] at hi
            subst hi
            rw [toolCallIds_serializeAssistant] at hids
            have hne : r.tool_calls ≠ [] := by
              intro hnil; rw [hnil] at hids; exact hids rfl
            have := H k r hr hne
            rw [htc2] at this
            exact absurd this (by simp)
          | i + 1 =>
            rw [List.getElem?_cons_succ] at hi
            simp at hi
        · intro t2 h
          rw [List.getElem?_cons_zero, Option.some.injEq] at h
          subst h
          exact roleIs_serializeAssistant_tool r

/-- The assistant/tool appends of one `run_agent_turn` satisfy tool-call
closure (helper for claim C1): the persisted sequence is the user message
followed by the loop's appends. -/
theorem persisted_run_agent_turn (loaded : List Json) (summary : Option String)
    (respond : Nat → Option Response) (execF : ToolCall → String)
    (userText : String) (maxTurns threshold : Nat) :
    persisted (run_agent_turn loaded summary respond execF userText maxTurns threshold).1 =
      mkUserMsg userText :: persisted (runLoop respond execF maxTurns 0).1 := by
  unfold run_agent_turn
  rw [persisted_append_evt, persisted_preEvents, persisted_cons_append]
  rfl

/-- Every tool of an assistant message is executed before the message is
appended: each tool-call id of an appended assistant message has an
earlier execution event in the trace. -/
def ExecBeforeAppend (tr : List Event) : Prop :=
  ∀ (n : Nat) (m : Json), tr[n]? = some (Event.append m) → roleIs m "assistant" = true →
    ∀ id ∈ toolCallIds m, ∃ (p : Nat) (nm : String),
      p < n ∧ tr[p]? = some (Event.exec nm id)

/-- No tool result is appended before its assistant message: every
appended tool message has an earlier appended assistant message listing
its `tool_call_id`. -/
def AssistantBeforeTool (tr : List Event) : Prop :=
  ∀ (n : Nat) (m : Json), tr[n]? = some (Event.append m) → roleIs m "tool" = true →
    ∀ id, toolCallIdOf m = some id →
      ∃ (p : Nat) (am : Json), p < n ∧ tr[p]? = some (Event.append am) ∧
        roleIs am "assistant" = true ∧ id ∈ toolCallIds am

theorem ExecBeforeAppend_append (B tr : List Event)
    (hB : ∀ (n : Nat) (m : Json), B[n]? = some (Event.append m) →
      roleIs m "assistant" = true →
      ∀ id ∈ toolCallIds m, ∃ (p : Nat) (nm : String),
        p < n ∧ B[p]? = some (Event.exec nm id))
    (htr : ExecBeforeAppend tr) : ExecBeforeAppend (B ++ tr) := by
  intro n m hn hrole id hid
  by_cases hlt : n < B.length
  · rw [List.getElem?_append_left hlt] at hn
    obtain ⟨p, nm, hp, hpe⟩ := hB n m hn hrole id hid
    exact ⟨p, nm, hp, by rw [List.getElem?_append_left (by omega)]; exact hpe⟩
  · push_neg at hlt
    rw [List.getElem?_append_right hlt] at hn
    obtain ⟨p, nm, hp, hpe⟩ := htr (n - B.length) m hn hrole id hid
    refine ⟨B.length + p, nm, by omega, ?_⟩
    rw [List.getElem?_append_right (by omega)]
    simpa using hpe

theorem AssistantBeforeTool_append (B tr : List Event)
    (hB : ∀ (n : Nat) (m : Json), B[n]? = some (Event.append m) →
      roleIs m "tool" = true →
      ∀ id, toolCallIdOf m = some id →
        ∃ (p : Nat) (am : Json), p < n ∧ B[p]? = some (Event.append am) ∧
          roleIs am "assistant" = true ∧ id ∈ toolCallIds am)
    (htr : AssistantBeforeTool tr) : AssistantBeforeTool (B ++ tr) := by
  intro n m hn hrole id hid
  by_cases hlt : n < B.length
  · rw [List.getElem?_append_left hlt] at hn
    obtain ⟨p, am, hp, hpe, ham, hmem⟩ := hB n m hn hrole id hid
    exact ⟨p, am, hp, by rw [List.getElem?_append_left (by omega)]; exact hpe, ham, hmem⟩
  · push_neg at hlt
    rw [List.getElem?_append_right hlt] at hn
    obtain ⟨p, am, hp, hpe, ham, hmem⟩ := htr (n - B.length) m hn hrole id hid
    refine ⟨B.length + p, am, by omega, ?_, ham, hmem⟩
    rw [List.getElem?_append_right (by omega)]
    simpa using hpe

theorem ExecBeforeAppend_cons_user (u : Json) (tr : List Event)
    (hu : roleIs u "assistant" = false) (htr : ExecBeforeAppend tr) :
    ExecBeforeAppend (Event.append u :: tr) := by
  intro n m hn hrole id hid
  match n with
  | 0 =>
    rw [List.getElem?_cons_zero] at hn
    simp only [Option.some.injEq, Event.append.injEq] at hn
    subst hn
    rw [hrole] at hu
    exact absurd hu (by simp)
  | n + 1 =>
    rw [List.getElem?_cons_succ] at hn
    obtain ⟨p, nm, hp, hpe⟩ := htr n m hn hrole id hid
    exact ⟨p + 1, nm, by omega, by rw [List.getElem?_cons_succ]; exact hpe⟩

theorem AssistantBeforeTool_cons_user (u : Json) (tr : List Event)
    (hu : roleIs u "tool" = false) (htr : AssistantBeforeTool tr) :
    AssistantBeforeTool (Event.append u :: tr) := by
  intro n m hn hrole id hid
  match n with
  | 0 =>
    rw [List.getElem?_cons_zero] at hn
    simp only [Option.some.injEq, Event.append.injEq] at hn
    subst hn
    rw [hrole] at hu
    exact absurd hu (by simp)
  | n + 1 =>
    rw [List.getElem?_cons_succ] at hn
    obtain ⟨p, am, hp, hpe, ham, hmem⟩ := htr n m hn hrole id hid
    exact ⟨p + 1, am, by omega, by rw [List.getElem?_cons_succ]; exact hpe, ham, hmem⟩

theorem cycleBlock_execBefore (k : Nat) (cs : List ToolCall) (execF : ToolCall → String)
    (a : Json) (hids : toolCallIds a = cs.map (fun tc => tc.id)) :
    ∀ (n : Nat) (m : Json),
      ((Event.llm k :: cs.map (fun tc => Event.exec tc.name tc.id)) ++
        (Event.append a ::
          (cs.map (fun tc => mkToolResultMsg tc.id (execF tc))).map Event.append))[n]? =
        some (Event.append m) →
      roleIs m "assistant" = true →
      ∀ id ∈ toolCallIds m, ∃ (p : Nat) (nm : String), p < n ∧
        ((Event.llm k :: cs.map (fun tc => Event.exec tc.name tc.id)) ++
          (Event.append a ::
            (cs.map (fun tc => mkToolResultMsg tc.id (execF tc))).map Event.append))[p]? =
          some (Event.exec nm id) := by
  intro n m hn hrole id hid
  have hl1 : (Event.llm k :: cs.map (fun tc => Event.exec tc.name tc.id)).length =
      cs.length + 1 := by simp
  by_cases h1 : n < cs.length + 1
  · exfalso
    rw [List.getElem?_append_left (by omega)] at hn
    match n with
    | 0 =>
      rw [List.getElem?_cons_zero] at hn
      simp at hn
    | j + 1 =>
      rw [List.getElem?_cons_succ] at hn
      have hmap : (cs.map (fun tc => Event.exec tc.name tc.id))[j]? =
          (cs[j]?).map (fun tc => Event.exec tc.name tc.id) := by simp
      rw [hmap] at hn
      cases hc : cs[j]? with
      | none => rw [hc] at hn; simp at hn
      | some tc => rw [hc] at hn; simp at hn
  · push_neg at h1
    rw [List.getElem?_append_right (by omega), hl1] at hn
    cases hd : n - (cs.length + 1) with
    | zero =>
      rw [hd, List.getElem?_cons_zero] at hn
      simp only [Option.some.injEq, Event.append.injEq] at hn
      subst hn
      rw [hids] at hid
      obtain ⟨tc, htc, hideq⟩ := List.mem_map.mp hid
      obtain ⟨j, hj⟩ := List.getElem?_of_mem htc
      have hjlt : j < cs.length := by
        by_contra hcon
        push_neg at hcon
        rw [List.getElem?_eq_none (by omega)] at hj
        exact absurd hj (by simp)
      refine ⟨j + 1, tc.name, by omega, ?_⟩
      rw [List.getElem?_append_left (by omega), List.getElem?_cons_succ]
      have hmap : (cs.map (fun tc => Event.exec tc.name tc.id))[j]? =
          (cs[j]?).map (fun tc => Event.exec tc.name tc.id) := by simp
      rw [hmap, hj]
      simp [hideq]
    | succ j =>
      exfalso
      rw [hd, List.getElem?_cons_succ] at hn
      have hmap : ((cs.map (fun tc => mkToolResultMsg tc.id (execF tc))).map
          Event.append)[j]? =
          ((cs.map (fun tc => mkToolResultMsg tc.id (execF tc)))[j]?).map Event.append := by
        simp
      rw [hmap] at hn
      have hmap2 : (cs.map (fun tc => mkToolResultMsg tc.id (execF tc)))[j]? =
          (cs[j]?).map (fun tc => mkToolResultMsg tc.id (execF tc)) := by simp
      rw [hmap2] at hn
      cases hcj : cs[j]? with
      | none => rw [hcj] at hn; simp at hn
      | some tc =>
        rw [hcj] at hn
        have hm : mkToolResultMsg tc.id (execF tc) = m := by simpa using hn
        rw [← hm, roleIs_mkToolResultMsg_assistant] at hrole
        exact absurd hrole (by simp)

theorem cycleBlock_assistantBefore (k : Nat) (cs : List ToolCall)
    (execF : ToolCall → String) (a : Json)
    (hids : toolCallIds a = cs.map (fun tc => tc.id))
    (haasst : roleIs a "assistant" = true) (hatool : roleIs a "tool" = false) :
    ∀ (n : Nat) (m : Json),
      ((Event.llm k :: cs.map (fun tc => Event.exec tc.name tc.id)) ++
        (Event.append a ::
          (cs.map (fun tc => mkToolResultMsg tc.id (execF tc))).map Event.append))[n]? =
        some (Event.append m) →
      roleIs m "tool" = true →
      ∀ id, toolCallIdOf m = some id →
        ∃ (p : Nat) (am : Json), p < n ∧
          ((Event.llm k :: cs.map (fun tc => Event.exec tc.name tc.id)) ++
            (Event.append a ::
              (cs.map (fun tc => mkToolResultMsg tc.id (execF tc))).map Event.append))[p]? =
            some (Event.append am) ∧
          roleIs am "assistant" = true ∧ id ∈ toolCallIds am := by
  intro n m hn hrole id hid
  have hl1 : (Event.llm k :: cs.map (fun tc => Event.exec tc.name tc.id)).length =
      cs.length + 1 := by simp
  by_cases h1 : n < cs.length + 1
  · exfalso
    rw [List.getElem?_append_left (by omega)] at hn
    match n with
    | 0 =>
      rw [List.getElem?_cons_zero] at hn
      simp at hn
    | j + 1 =>
      rw [List.getElem?_cons_succ] at hn
      have hmap : (cs.map (fun tc => Event.exec tc.name tc.id))[j]? =
          (cs[j]?).map (fun tc => Event.exec tc.name tc.id) := by simp
      rw [hmap] at hn
      cases hc : cs[j]? with
      | none => rw [hc] at hn; simp at hn
      | some tc => rw [hc] at hn; simp at hn
  · push_neg at h1
    rw [List.getElem?_append_right (by omega), hl1] at hn
    cases hd : n - (cs.length + 1) with
    | zero =>
      exfalso
      rw [hd, List.getElem?_cons_zero] at hn
      simp only [Option.some.injEq, Event.append.injEq] at hn
      subst hn
      rw [hatool] at hrole
      exact absurd hrole (by simp)
    | succ j =>
      rw [hd, List.getElem?_cons_succ] at hn
      have hmap : ((cs.map (fun tc => mkToolResultMsg tc.id (execF tc))).map
          Event.append)[j]? =
          ((cs[j]?).map (fun tc => mkToolResultMsg tc.id (execF tc))).map Event.append := by
        simp
      rw [hmap] at hn
      cases hcj : cs[j]? with
      | none => rw [hcj] at hn; simp at hn
      | some tc =>
        rw [hcj] at hn
        have hm : mkToolResultMsg tc.id (execF tc) = m := by simpa using hn
        have hidm : id = tc.id := by
          rw [← hm, toolCallIdOf_mkToolResultMsg] at hid
          exact (Option.some.injEq _ _ ▸ hid).symm
        refine ⟨cs.length + 1, a, by omega, ?_, haasst, ?_⟩
        · rw [List.getElem?_append_right (by omega), hl1]
          simp
        · rw [hids, hidm]
          exact List.mem_map.mpr ⟨tc, List.getElem?_mem hcj, rfl⟩

theorem runLoop_ExecBeforeAppend (respond : Nat → Option Response)
    (execF : ToolCall → String)
    (H : ∀ k r, respond k = some r → r.tool_calls ≠ [] → hasToolCalls r = true) :
    ∀ fuel k, ExecBeforeAppend (runLoop respond execF fuel k).1 := by
  intro fuel
  induction fuel with
  | zero =>
    intro k n m hn
    simp [runLoop] at hn
  | succ fuel ih =>
    intro k
    cases hr : respond k with
    | none =>
      intro n m hn hrole id hid
      exfalso
      rw [show (runLoop respond execF (fuel + 1) k).1 = [Event.llm k] by
        simp [runLoop, hr]] at hn
      match n with
      | 0 => rw [List.getElem?_cons_zero] at hn; simp at hn
      | n + 1 => rw [List.getElem?_cons_succ] at hn; simp at hn
    | some r =>
      by_cases htc : hasToolCalls r = true
      · have heq : (runLoop respond execF (fuel + 1) k).1 =
            ((Event.llm k :: r.tool_calls.map (fun tc => Event.exec tc.name tc.id)) ++
              (Event.append (serializeAssistantMessage r) ::
                (r.tool_calls.map (fun tc => mkToolResultMsg tc.id (execF tc))).map
                  Event.append)) ++ (runLoop respond execF fuel (k + 1)).1 := by
          simp [runLoop, hr, htc]
        rw [heq]
        exact ExecBeforeAppend_append _ _
          (cycleBlock_execBefore k r.tool_calls execF (serializeAssistantMessage r)
            (toolCallIds_serializeAssistant r)) (ih (k + 1))
      · have htc2 : hasToolCalls r = false := by
          revert htc; cases hasToolCalls r <;> simp
        intro n m hn hrole id hid
        rw [show (runLoop respond execF (fuel + 1) k).1 =
            [Event.llm k, Event.append (serializeAssistantMessage r)] by
          simp [runLoop, hr, htc2]] at hn
        exfalso
        match n with
        | 0 => rw [List.getElem?_cons_zero] at hn; simp at hn
        | 1 =>
          rw [List.getElem?_cons_succ, List.getElem?_cons_zero] at hn
          simp only [Option.some.injEq, Event.append.injEq] at hn
          subst hn
          rw [toolCallIds_serializeAssistant] at hid
          rcases List.mem_map.mp hid with ⟨tc, htcmem, _⟩
          have hne : r.tool_calls ≠ [] := by
            intro hnil; rw [hnil] at htcmem; simp at htcmem
          have := H k r hr hne
          rw [htc2] at this
          exact absurd this (by simp)
        | n + 2 =>
          rw [List.getElem?_cons_succ, List.getElem?_cons_succ] at hn
          simp at hn

theorem runLoop_AssistantBeforeTool (respond : Nat → Option Response)
    (execF : ToolCall → String) :
    ∀ fuel k, AssistantBeforeTool (runLoop respond execF fuel k).1 := by
  intro fuel
  induction fuel with
  | zero =>
    intro k n m hn
    simp [runLoop] at hn
  | succ fuel ih =>
    intro k
    cases hr : respond k with
    | none =>
      intro n m hn hrole id hid
      exfalso
      rw [show (runLoop respond execF (fuel + 1) k).1 = [Event.llm k] by
        simp [runLoop, hr]] at hn
      match n with
      | 0 => rw [List.getElem?_cons_zero] at hn; simp at hn
      | n + 1 => rw [List.getElem?_cons_succ] at hn; simp at hn
    | some r =>
      by_cases htc : hasToolCalls r = true
      · have heq : (runLoop respond execF (fuel + 1) k).1 =
            ((Event.llm k :: r.tool_calls.map (fun tc => Event.exec tc.name tc.id)) ++
              (Event.append (serializeAssistantMessage r) ::
                (r.tool_calls.map (fun tc => mkToolResultMsg tc.id (execF tc))).map
                  Event.append)) ++ (runLoop respond execF fuel (k + 1)).1 := by
          simp [runLoop, hr, htc]
        rw [heq]
        exact AssistantBeforeTool_append _ _
          (cycleBlock_assistantBefore k r.tool_calls execF (serializeAssistantMessage r)
            (toolCallIds_serializeAssistant r) (roleIs_serializeAssistant r)
            (roleIs_serializeAssistant_tool r)) (ih (k + 1))
      · have htc2 : hasToolCalls r = false := by
          revert htc; cases hasToolCalls r <;> simp
        intro n m hn hrole id hid
        rw [show (runLoop respond execF (fuel + 1) k).1 =
            [Event.llm k, Event.append (serializeAssistantMessage r)] by
          simp [runLoop, hr, htc2]] at hn
        exfalso
        match n with
        | 0 => rw [List.getElem?_cons_zero] at hn; simp at hn
        | 1 =>
          rw [List.getElem?_cons_succ, List.getElem?_cons_zero] at hn
          simp only [Option.some.injEq, Event.append.injEq] at hn
          subst hn
          rw [roleIs_serializeAssistant_tool] at hrole
          exact absurd hrole (by simp)
        | n + 2 =>
          rw [List.getElem?_cons_succ, List.getElem?_cons_succ] at hn
          simp at hn

theorem preEvents_no_append (ms : List Json) (s : Option String) (t : Nat) :
    ∀ (n : Nat) (m : Json), (preEvents ms s t)[n]? ≠ some (Event.append m) := by
  intro n m hn
  have hmem := List.getElem?_mem hn
  rcases mem_preEvents ms s t _ hmem with h | ⟨l, h⟩ <;> simp at h

/-- C1 amended: provided every client response with a non-empty
`tool_calls` list also carries one of the two tool finish reasons (the
loop's detection condition — a response with tool calls but another
finish reason is treated as final and persisted without executing
anything, see the counterexample), each tool cycle of `run_agent_turn`
executes all requested tools before anything of the step is persisted,
then appends the assistant message followed immediately by exactly one
tool message per call with the call ids in declaration order; no tool
result is persisted before its assistant message. -/
theorem c1_tool_cycle_atomicity (loaded : List Json) (summary : Option String)
    (respond : Nat → Option Response) (execF : ToolCall → String)
    (userText : String) (maxTurns threshold : Nat)
    (H : ∀ k r, respond k = some r → r.tool_calls ≠ [] → hasToolCalls r = true) :
    ClosedLog (persisted
      (run_agent_turn loaded summary respond execF userText maxTurns threshold).1) ∧
    ExecBeforeAppend
      (run_agent_turn loaded summary respond execF userText maxTurns threshold).1 ∧
    AssistantBeforeTool
      (run_agent_turn loaded summary respond execF userText maxTurns threshold).1 := by
  refine ⟨?_, ?_, ?_⟩
  · rw [persisted_run_agent_turn]
    exact ClosedLog_cons _ _ (Or.inl (roleIs_mkUserMsg_assistant userText))
      (runLoop_ClosedLog respond execF H maxTurns 0).1
  · show ExecBeforeAppend (preEvents (sanitize_loaded_messages loaded) summary threshold ++
      Event.append (mkUserMsg userText) :: (runLoop respond execF maxTurns 0).1)
    apply ExecBeforeAppend_append
    · intro n m hn
      exact absurd hn (preEvents_no_append _ _ _ n m)
    · exact ExecBeforeAppend_cons_user _ _ (roleIs_mkUserMsg_assistant userText)
        (runLoop_ExecBeforeAppend respond execF H maxTurns 0)
  · show AssistantBeforeTool (preEvents (sanitize_loaded_messages loaded) summary threshold ++
      Event.append (mkUserMsg userText) :: (runLoop respond execF maxTurns 0).1)
    apply AssistantBeforeTool_append
    · intro n m hn
      exact absurd hn (preEvents_no_append _ _ _ n m)
    · exact AssistantBeforeTool_cons_user _ _ (roleIs_mkUserMsg_tool userText)
        (runLoop_AssistantBeforeTool respond execF maxTurns 0)

/-- A fixed tool-result function for concrete scenarios. -/
def execF0 : ToolCall → String := fun _ => "echoed"

/-- Response with a non-empty `tool_calls` list but finish reason "stop". -/
def respStop : Response :=
  ⟨some "x", [⟨"c1", "echo", "\x7b\x7d"⟩], "stop"⟩

/-- Client that always returns `respStop`. -/
def respondBad (_ : Nat) : Option Response := some respStop

/-- C1 counterexample: the claim quantifies over every assistant response
with tool calls, but a response whose `tool_calls` list is `[c1]` while
`finish_reason` is "stop" fails the loop's detection: it is persisted as
the final assistant message, with its `tool_calls` field, while zero
tools are executed and no tool message follows it. -/
theorem c1_counterexample :
    (persisted (run_agent_turn [] none respondBad execF0 "go" 3 100).1).length = 2 ∧
    (persisted (run_agent_turn [] none respondBad execF0 "go" 3 100).1)[1]? =
      some (serializeAssistantMessage respStop) ∧
    roleIs (serializeAssistantMessage respStop) "assistant" = true ∧
    toolCallIds (serializeAssistantMessage respStop) = ["c1"] ∧
    (run_agent_turn [] none respondBad execF0 "go" 3 100).1.countP
      (fun e => match e with | Event.exec _ _ => true | _ => false) = 0 :=
  ⟨rfl, rfl, rfl, rfl, rfl⟩

/-- First response of the C1 witness scenario: one proper tool cycle. -/
def resp0 : Response :=
  ⟨some "x", [⟨"c1", "echo", "\x7b\x7d"⟩], "tool_use"⟩

/-- Second response of the C1 witness scenario: plain final text. -/
def resp1 : Response := ⟨some "done", [], "stop"⟩

/-- Client of the C1 witness scenario. -/
def respond0 (k : Nat) : Option Response :=
  if k = 0 then some resp0 else some resp1

theorem respond0_consistent :
    ∀ k r, respond0 k = some r → r.tool_calls ≠ [] → hasToolCalls r = true := by
  intro k r hk hne
  unfold respond0 at hk
  by_cases h : k = 0
  · rw [if_pos h] at hk
    have : resp0 = r := by injection hk
    subst this
    rfl
  · rw [if_neg h] at hk
    have : resp1 = r := by injection hk
    subst this
    exact absurd rfl hne

/-- Witness for C1's amended theorem: a concrete turn with one proper tool
cycle followed by a final text response satisfies tool-call closure. -/
theorem c1_witness :
    ClosedLog (persisted (run_agent_turn [] none respond0 execF0 "go" 5 100).1) :=
  (c1_tool_cycle_atomicity [] none respond0 execF0 "go" 5 100 respond0_consistent).1

/-! ## Claim C7: the max-turns budget -/

theorem runLoop_all_tool (respond : Nat → Option Response) (execF : ToolCall → String) :
    ∀ fuel k,
      (∀ i, k ≤ i → i < k + fuel → ∃ r, respond i = some r ∧ hasToolCalls r = true) →
      (runLoop respond execF fuel k).2 = Except.ok "(max tool turns reached)" ∧
      llmCount (runLoop respond execF fuel k).1 = fuel := by
  intro fuel
  induction fuel with
  | zero => intro k _; exact ⟨rfl, rfl⟩
  | succ fuel ih =>
    intro k hall
    obtain ⟨r, hr, htc⟩ := hall k (le_refl k) (by omega)
    have hrest := ih (k + 1) (fun i h1 h2 => hall i (by omega) (by omega))
    constructor
    · simp only [runLoop, hr, htc, if_true]
      exact hrest.1
    · simp only [runLoop, hr, htc, if_true]
      rw [llmCount_append_evt, llmCount_append_evt, llmCount_cons_llm,
        llmCount_map_exec, llmCount_cons_append, llmCount_map_append, hrest.2]
      omega

theorem runLoop_sentinel_inv (respond : Nat → Option Response) (execF : ToolCall → String) :
    ∀ fuel k,
      (runLoop respond execF fuel k).2 = Except.ok "(max tool turns reached)" →
      (∀ i, k ≤ i → i < k + fuel → ∃ r, respond i = some r ∧ hasToolCalls r = true) ∨
      (∃ j r, k ≤ j ∧ j < k + fuel ∧ respond j = some r ∧ hasToolCalls r = false ∧
        r.content.getD "" = "(max tool turns reached)") := by
  intro fuel
  induction fuel with
  | zero =>
    intro k _
    left
    intro i h1 h2
    omega
  | succ fuel ih =>
    intro k hres
    cases hr : respond k with
    | none =>
      exfalso
      simp only [runLoop, hr] at hres
      exact absurd hres (by simp)
    | some r =>
      by_cases htc : hasToolCalls r = true
      · have hres2 : (runLoop respond execF fuel (k + 1)).2 =
            Except.ok "(max tool turns reached)" := by
          simpa only [runLoop, hr, htc, if_true] using hres
        rcases ih (k + 1) hres2 with hall | ⟨j, r2, hj1, hj2, hjr, hjf, hjc⟩
        · left
          intro i h1 h2
          by_cases hik : i = k
          · subst hik; exact ⟨r, hr, htc⟩
          · exact hall i (by omega) (by omega)
        · right
          exact ⟨j, r2, by omega, by omega, hjr, hjf, hjc⟩
      · have htc2 : hasToolCalls r = false := by
          revert htc; cases hasToolCalls r <;> simp
        have hcont : r.content.getD "" = "(max tool turns reached)" := by
          simp only [runLoop, hr, htc2, Bool.false_eq_true, if_false] at hres
          exact (Except.ok.injEq _ _ ▸ hres)
        right
        exact ⟨k, r, le_refl k, by omega, hr, htc2, hcont⟩

/-- C7 amended: when every one of the first `max_turns` responses is
tool-requesting, the loop returns the sentinel after exactly `max_turns`
LLM calls; conversely a sentinel return means either that, or that some
earlier response was final with text equal to the sentinel string (the
two outcomes are indistinguishable in the returned string, see the
counterexample).  With `max_turns = 0` the sentinel is returned after
zero LLM calls and the turn persists only the user message. -/
theorem c7_budget_sentinel (respond : Nat → Option Response)
    (execF : ToolCall → String) (maxTurns : Nat) :
    ((∀ i, i < maxTurns → ∃ r, respond i = some r ∧ hasToolCalls r = true) →
      (runLoop respond execF maxTurns 0).2 = Except.ok "(max tool turns reached)" ∧
      llmCount (runLoop respond execF maxTurns 0).1 = maxTurns) ∧
    ((runLoop respond execF maxTurns 0).2 = Except.ok "(max tool turns reached)" →
      (∀ i, i < maxTurns → ∃ r, respond i = some r ∧ hasToolCalls r = true) ∨
      (∃ j r, j < maxTurns ∧ respond j = some r ∧ hasToolCalls r = false ∧
        r.content.getD "" = "(max tool turns reached)")) ∧
    ((runLoop respond execF 0 0).2 = Except.ok "(max tool turns reached)" ∧
      llmCount (runLoop respond execF 0 0).1 = 0) ∧
    (∀ loaded summary userText threshold,
      persisted (run_agent_turn loaded summary respond execF userText 0 threshold).1 =
        [mkUserMsg userText]) := by
  refine ⟨?_, ?_, ⟨rfl, rfl⟩, ?_⟩
  · intro hall
    exact runLoop_all_tool respond execF maxTurns 0 (fun i _ h2 => hall i (by omega))
  · intro hres
    rcases runLoop_sentinel_inv respond execF maxTurns 0 hres with hall | ⟨j, r, _, hj2, hjr, hjf, hjc⟩
    · left; intro i hi; exact hall i (by omega) (by omega)
    · right; exact ⟨j, r, by omega, hjr, hjf, hjc⟩
  · intro loaded summary userText threshold
    rw [persisted_run_agent_turn]
    rfl

/-- Final response whose text happens to equal the budget sentinel. -/
def respEcho : Response := ⟨some "(max tool turns reached)", [], "stop"⟩

/-- Client that always returns `respEcho`. -/
def respondEcho (_ : Nat) : Option Response := some respEcho

/-- C7 counterexample: with `max_turns = 2` and a first response that is
not tool-requesting but whose text is the sentinel string, the loop
returns the sentinel string after exactly one LLM call — so the sentinel
is not returned "exactly when" all `max_turns` calls request tools, nor
with exactly `max_turns` calls. -/
theorem c7_counterexample :
    (runLoop respondEcho execF0 2 0).2 = Except.ok "(max tool turns reached)" ∧
    llmCount (runLoop respondEcho execF0 2 0).1 = 1 ∧
    hasToolCalls respEcho = false :=
  ⟨rfl, rfl, rfl⟩

/-- A response that always requests a tool. -/
def respCycle : Response := ⟨none, [⟨"c1", "echo", "\x7b\x7d"⟩], "tool_calls"⟩

/-- Client that always returns `respCycle`. -/
def respondCycle (_ : Nat) : Option Response := some respCycle

/-- Witness for C7's amended theorem: a client that always requests tools
exhausts a budget of 3 with exactly 3 LLM calls. -/
theorem c7_witness :
    (runLoop respondCycle execF0 3 0).2 = Except.ok "(max tool turns reached)" ∧
    llmCount (runLoop respondCycle execF0 3 0).1 = 3 :=
  (c7_budget_sentinel respondCycle execF0 3).1 (fun _ _ => ⟨respCycle, rfl, rfl⟩)

/-! ## Claim C9: user message persisted before the loop's LLM requests -/

/-- C9 amended: the user message is appended before every turn-loop LLM
request (so it is persisted even when a loop request raises or
`max_turns = 0`); however, when compaction triggers, the compactor's own
summarization LLM request precedes the user append (see the
counterexample). -/
theorem c9_user_append_before_loop_llm (loaded : List Json) (summary : Option String)
    (respond : Nat → Option Response) (execF : ToolCall → String)
    (userText : String) (maxTurns threshold : Nat) :
    ∃ (j : Nat),
      (run_agent_turn loaded summary respond execF userText maxTurns threshold).1[j]? =
        some (Event.append (mkUserMsg userText)) ∧
      ∀ (i k : Nat),
        (run_agent_turn loaded summary respond execF userText maxTurns threshold).1[i]? =
          some (Event.llm k) → j < i := by
  refine ⟨(preEvents (sanitize_loaded_messages loaded) summary threshold).length, ?_, ?_⟩
  · show (preEvents (sanitize_loaded_messages loaded) summary threshold ++
      Event.append (mkUserMsg userText) :: (runLoop respond execF maxTurns 0).1)[
        (preEvents (sanitize_loaded_messages loaded) summary threshold).length]? = _
    rw [List.getElem?_append_right (le_refl _)]
    simp
  · intro i k hi
    rw [show (run_agent_turn loaded summary respond execF userText maxTurns threshold).1 =
      preEvents (sanitize_loaded_messages loaded) summary threshold ++
        Event.append (mkUserMsg userText) :: (runLoop respond execF maxTurns 0).1 from rfl] at hi
    by_cases h1 : i < (preEvents (sanitize_loaded_messages loaded) summary threshold).length
    · exfalso
      rw [List.getElem?_append_left h1] at hi
      rcases mem_preEvents _ _ _ _ (List.getElem?_mem hi) with h | ⟨l, h⟩ <;> simp at h
    · push_neg at h1
      by_cases h2 : i = (preEvents (sanitize_loaded_messages loaded) summary threshold).length
      · exfalso
        subst h2
        rw [List.getElem?_append_right (le_refl _)] at hi
        simp at hi
      · omega

/-- C9 counterexample: with a two-message loaded history and threshold 1
the compactor fires, so the trace starts with the compaction LLM request
(index 0) and the overwrite (index 1) **before** the user message is
appended (index 2): an LLM request is issued before the user append. -/
theorem c9_counterexample :
    (run_agent_turn [uMsg0, aMsg0] (some "s") respondEcho execF0 "hi" 1 1).1[0]? =
      some Event.compactCall ∧
    (run_agent_turn [uMsg0, aMsg0] (some "s") respondEcho execF0 "hi" 1 1).1[2]? =
      some (Event.append (mkUserMsg "hi")) :=
  ⟨rfl, rfl⟩

/-- Witness for C9's amended theorem at a concrete turn with empty history
(no compaction). -/
theorem c9_witness :
    ∃ (j : Nat),
      (run_agent_turn [] none respondEcho execF0 "hey" 1 100).1[j]? =
        some (Event.append (mkUserMsg "hey")) ∧
      ∀ (i k : Nat),
        (run_agent_turn [] none respondEcho execF0 "hey" 1 100).1[i]? =
          some (Event.llm k) → j < i :=
  c9_user_append_before_loop_llm [] none respondEcho execF0 "hey" 1 100

/-! ## Agent router (agent/router.py) -/

/-- Embedding of `AgentConfig` (the fields `resolve` and `run` read).
The source fields `prefix` and `session_prefix` are named `slashCommand`
and `session_namespace` here (the original spellings are not legal
identifiers in this development). -/
structure AgentConfig where
  name : String
  model : String
  slashCommand : Option String
  session_namespace : String
deriving DecidableEq

/-- Router state: the default agent and the insertion-ordered
`prefix.lower() → agent` map built by `AgentRouter.__init__`. -/
structure AgentRouter where
  defaultAgent : AgentConfig
  prefixMap : List (String × AgentConfig)

/-- Insertion into a Python dict: overwrite in place when the key exists,
else append. -/
def dictInsert (m : List (String × AgentConfig)) (k : String) (v : AgentConfig) :
    List (String × AgentConfig) :=
  if m.any (fun kv => kv.1 == k) then
    m.map (fun kv => if kv.1 == k then (k, v) else kv)
  else m ++ [(k, v)]

/-- Python `str.lower()` for the ASCII range (all prefixes and commands
the program compares are ASCII). -/
def pyLower (s : String) : String :=
  String.mk (s.data.map Char.toLower)

/-- Python whitespace for `str.strip()`/`str.split()` (ASCII subset). -/
def pyIsSpace (c : Char) : Bool :=
  c == ' ' || c == '\t' || c == '\n' || c == '\r' || c.toNat == 11 || c.toNat == 12

/-- Python `str.strip()`: drop whitespace from both ends. -/
def pyStrip (s : String) : String :=
  String.mk (((s.data.dropWhile pyIsSpace).reverse.dropWhile pyIsSpace).reverse)

/-- Python `str.startswith(pre)`. -/
def pyStartsWith (s pre : String) : Bool :=
  pre.data.isPrefixOf s.data

/-- Python slicing `s[n:]` (character based). -/
def pyDrop (s : String) (n : Nat) : String :=
  String.mk (s.data.drop n)

/-- Python `len(s)` (character based). -/
def pyLen (s : String) : Nat :=
  s.data.length

/-- Embedding of `AgentRouter.__init__`: agents with a falsy `prefix` are
skipped, the rest are keyed by the lowercased prefix in registration
order. -/
def buildPrefixMap (agents : List AgentConfig) : List (String × AgentConfig) :=
  agents.foldl (fun m a =>
    match a.slashCommand with
    | some p => if p == "" then m else dictInsert m (pyLower p) a
    | none => m) []

/-- Build a router from a default agent and registered agents. -/
def mkRouter (defaultAgent : AgentConfig) (agents : List AgentConfig) : AgentRouter :=
  ⟨defaultAgent, buildPrefixMap agents⟩

/-- Embedding of `AgentRouter.resolve` (agent/router.py): lowercase the
stripped text, test `startswith` against each registered prefix in
order; on a match strip the prefix and surrounding whitespace and
substitute the placeholder for an empty remainder; otherwise return the
default agent with the text untouched. -/
def resolve (router : AgentRouter) (user_text : String) : AgentConfig × String :=
  match router.prefixMap.find? (fun kv => pyStartsWith (pyLower (pyStrip user_text)) kv.1) with
  | some (p, agent) =>
    let remainder := pyStrip (pyDrop (pyStrip user_text) (pyLen p))
    (agent, if remainder == "" then "(no query provided)" else remainder)
  | none => (router.defaultAgent, user_text)

theorem find?_first {α : Type} (pred : α → Bool) :
    ∀ (m1 : List α) (x : α) (m2 : List α), (∀ y ∈ m1, pred y = false) →
      pred x = true → (m1 ++ x :: m2).find? pred = some x := by
  intro m1
  induction m1 with
  | nil =>
    intro x m2 _ hx
    simp [List.find?, hx]
  | cons y ys ih =>
    intro x m2 hall hx
    have hy : pred y = false := hall y (by simp)
    simp only [List.cons_append, List.find?, hy]
    exact ih x m2 (fun z hz => hall z (by simp [hz])) hx

/-- C5 amended: `resolve` lowercases the whitespace-trimmed text and
tests `startswith` against each registered prefix, first match winning in
registration order; on a match it returns the prefix agent with the
text trimmed, the prefix removed and the remainder trimmed of whitespace
on **both** sides (placeholder when empty); on no match the default agent
with the original text untouched. -/
theorem c5_resolve_characterization (router : AgentRouter) (text : String) :
    ((∀ kv ∈ router.prefixMap, pyStartsWith (pyLower (pyStrip text)) kv.1 = false) →
      resolve router text = (router.defaultAgent, text)) ∧
    (∀ m1 p a m2, router.prefixMap = m1 ++ (p, a) :: m2 →
      pyStartsWith (pyLower (pyStrip text)) p = true →
      (∀ kv ∈ m1, pyStartsWith (pyLower (pyStrip text)) kv.1 = false) →
      resolve router text =
        (a, if (pyStrip (pyDrop (pyStrip text) (pyLen p)) == "") = true
            then "(no query provided)"
            else pyStrip (pyDrop (pyStrip text) (pyLen p)))) := by
  constructor
  · intro hall
    unfold resolve
    rw [List.find?_eq_none.mpr (by
      intro kv hkv
      rw [hall kv hkv]
      simp)]
  · intro m1 p a m2 hmap hp hall
    unfold resolve
    rw [hmap, find?_first _ m1 (p, a) m2 (fun y hy => hall y hy) hp]

/-- `resolve` as claim C5 words it (formalized only to exhibit the
divergence): lowercase-compare the text's leading non-space run against
the registered prefixes; on a match strip the prefix and the *leading*
whitespace only. -/
def claimResolve (router : AgentRouter) (user_text : String) : AgentConfig × String :=
  let run := pyLower (String.mk (user_text.data.takeWhile (fun c => !pyIsSpace c)))
  match router.prefixMap.find? (fun kv => run == kv.1) with
  | some (p, agent) =>
    let remainder := String.mk ((user_text.data.drop (pyLen p)).dropWhile pyIsSpace)
    (agent, if remainder == "" then "(no query provided)" else remainder)
  | none => (router.defaultAgent, user_text)

/-- The default agent of the concrete router. -/
def jarvisCfg : AgentConfig := ⟨"Jarvis", "m", none, "agent:main"⟩

/-- The prefix agent of the concrete router. -/
def scoutCfg : AgentConfig := ⟨"Scout", "m", some "/research", "agent:research"⟩

/-- Concrete router with one registered prefix. -/
def ceRouter : AgentRouter := mkRouter jarvisCfg [scoutCfg]

/-- C5 counterexample: on `"/research foo "` (trailing blank) the code
returns the remainder stripped on both sides, `"foo"`, while the claimed
rule (strip the prefix and leading whitespace) yields `"foo "`. -/
theorem c5_counterexample :
    (resolve ceRouter "/research foo ").2 = "foo" ∧
    (claimResolve ceRouter "/research foo ").2 = "foo " ∧
    resolve ceRouter "/research foo " ≠ claimResolve ceRouter "/research foo " := by
  refine ⟨rfl, rfl, by decide⟩

/-- Witness for C5's amended characterization: no-match falls through to
the default agent with the text untouched; a match strips the prefix and
surrounding whitespace. -/
theorem c5_witness :
    resolve ceRouter "bonjour" = (jarvisCfg, "bonjour") ∧
    resolve ceRouter "/research  quantum" = (scoutCfg, "quantum") := by
  constructor
  · apply (c5_resolve_characterization ceRouter "bonjour").1
    intro kv hkv
    have hm : ceRouter.prefixMap = [("/research", scoutCfg)] := rfl
    rw [hm] at hkv
    rw [List.mem_singleton.mp hkv]
    decide
  · have h := (c5_resolve_characterization ceRouter "/research  quantum").2
      [] "/research" scoutCfg [] rfl (by decide) (by intro kv hkv; simp at hkv)
    rw [h]
    rfl

/-! ## Heartbeats (heartbeat/scheduler.py and main.py) -/

/-- Embedding of the `Heartbeat` dataclass. -/
structure Heartbeat where
  name : String
  schedule_expr : String
  prompt : String
  agent : String
deriving DecidableEq

/-- The session key `HeartbeatScheduler._fire` computes and passes as the
`session_key` argument of its run function. -/
def fireSessionKeyArg (h : Heartbeat) : String := "cron:" ++ h.name

/-- The `(channel, user_id, text)` triple with which a heartbeat firing
invokes `router.run`: `_fire` passes `("cron:<name>", prompt)` to
`_heartbeat_run_fn` (main.py), which forwards `channel="heartbeat"` and
`user_id=session_key`. -/
def heartbeatRunArgs (h : Heartbeat) : String × String × String :=
  ("heartbeat", fireSessionKeyArg h, h.prompt)

/-- The session key `AgentRouter.run` composes:
`f"{agent.session_prefix}:{channel}:{user_id}"` with the agent resolved
from the text. -/
def routerRunSessionKey (router : AgentRouter) (user_text channel user_id : String) :
    String :=
  (resolve router user_text).1.session_namespace ++ ":" ++ channel ++ ":" ++ user_id

/-- The session key a heartbeat turn actually runs on. -/
def heartbeatTurnSessionKey (router : AgentRouter) (h : Heartbeat) : String :=
  routerRunSessionKey router h.prompt "heartbeat" (fireSessionKeyArg h)

theorem string_key_fold (s tail : String) :
    s ++ ":" ++ "heartbeat" ++ ":" ++ ("cron:" ++ tail) =
      s ++ ":heartbeat:cron:" ++ tail := by
  rw [String.append_assoc, String.append_assoc, String.append_assoc,
    String.append_assoc]
  rfl

/-- C6 amended: a firing invokes the router with channel "heartbeat",
text equal to the heartbeat's prompt, and `user_id` equal to
`"cron:" ++ name` (not the bare name), so the turn runs on the session
key `"{session_namespace}:heartbeat:cron:{name}"` of the agent resolved
from the prompt. -/
theorem c6_heartbeat_routing (router : AgentRouter) (h : Heartbeat) :
    heartbeatRunArgs h = ("heartbeat", "cron:" ++ h.name, h.prompt) ∧
    heartbeatTurnSessionKey router h =
      (resolve router h.prompt).1.session_namespace ++ ":heartbeat:cron:" ++ h.name := by
  refine ⟨rfl, ?_⟩
  unfold heartbeatTurnSessionKey routerRunSessionKey fireSessionKeyArg
  rw [show (resolve router h.prompt).1.session_namespace ++ ":heartbeat:cron:" ++ h.name =
    (resolve router h.prompt).1.session_namespace ++ (":heartbeat:cron:" ++ h.name) from
    String.append_assoc _ _ _]
  rw [String.append_assoc, String.append_assoc, String.append_assoc]
  rfl

/-- Concrete heartbeat for the counterexample. -/
def hbMorning : Heartbeat := ⟨"morning", "every day at 07:30", "hello", "main"⟩

/-- C6 counterexample: the firing's `user_id` is `"cron:morning"`, not
`"morning"` as the claim states, and the dedicated session key is
`"agent:main:heartbeat:cron:morning"`, not
`"agent:main:heartbeat:morning"`. -/
theorem c6_counterexample :
    (heartbeatRunArgs hbMorning).2.1 = "cron:morning" ∧
    (heartbeatRunArgs hbMorning).2.1 ≠ "morning" ∧
    heartbeatTurnSessionKey ceRouter hbMorning = "agent:main:heartbeat:cron:morning" ∧
    heartbeatTurnSessionKey ceRouter hbMorning ≠ "agent:main:heartbeat:morning" := by
  refine ⟨rfl, by decide, rfl, by decide⟩

/-! ## Tool registry (tools/registry.py) -/

/-- Embedding of `Tool`: the handler either returns a result string or
raises (modelled as `Except.error` carrying `str(e)`). -/
structure Tool where
  name : String
  description : String
  input_schema : Json
  handler : Json → Except String String

/-- Embedding of `ToolRegistry.execute`: dict lookup by name (`register`
keeps names unique), unknown names and raising handlers both produce
error strings.  The function is total — the embedding of "never
raises". -/
def executeTool (tools : List Tool) (name : String) (tool_input : Json) : String :=
  match tools.find? (fun t => t.name == name) with
  | none => "Error: Unknown tool \x27" ++ name ++ "\x27"
  | some t =>
    match t.handler tool_input with
    | Except.ok r => r
    | Except.error e => "Error executing " ++ name ++ ": " ++ e

/-- C8: `execute` never raises (it is a total function in this model);
for an unregistered name it returns exactly
`"Error: Unknown tool '<name>'"`, and when the matched handler raises it
returns a string beginning with "Error". -/
theorem c8_execute_never_raises (tools : List Tool) (name : String) (input : Json) :
    (tools.find? (fun t => t.name == name) = none →
      executeTool tools name input = "Error: Unknown tool \x27" ++ name ++ "\x27") ∧
    (∀ t e, tools.find? (fun t => t.name == name) = some t →
      t.handler input = Except.error e →
      ∃ rest, executeTool tools name input = "Error" ++ rest) := by
  constructor
  · intro h
    unfold executeTool
    rw [h]
  · intro t e hf he
    refine ⟨" executing " ++ (name ++ (": " ++ e)), ?_⟩
    simp only [executeTool, hf, he]
    rw [show ("Error executing " : String) = "Error" ++ " executing " from rfl]
    rw [String.append_assoc, String.append_assoc, String.append_assoc]

/-- A registered tool whose handler succeeds. -/
def toolOK : Tool := ⟨"echo", "echoes", Json.null, fun _ => Except.ok "hi"⟩

/-- A registered tool whose handler raises. -/
def toolBoom : Tool := ⟨"boom", "raises", Json.null, fun _ => Except.error "kaboom"⟩

/-- Witness for C8 at a concrete registry: unknown tool and raising
handler. -/
theorem c8_witness :
    executeTool [toolOK] "nope" Json.null = "Error: Unknown tool \x27nope\x27" ∧
    ∃ rest, executeTool [toolOK, toolBoom] "boom" Json.null = "Error" ++ rest := by
  constructor
  · exact (c8_execute_never_raises [toolOK] "nope" Json.null).1 rfl
  · exact (c8_execute_never_raises [toolOK, toolBoom] "boom" Json.null).2
      toolBoom "kaboom" rfl rfl

/-! ## Permission gate (permissions/manager.py) -/

/-- The persisted approvals document `{allowed: [...], denied: [...]}`. -/
structure Approvals where
  allowed : List String
  denied : List String
deriving DecidableEq

/-- `command.strip().split()[0]` (or `""` when the command is blank): the
first whitespace-separated token of the stripped command. -/
def baseCommand (command : String) : String :=
  String.mk ((pyStrip command).data.takeWhile (fun c => !pyIsSpace c))

/-- The default safe set `DEFAULT_SAFE_COMMANDS`. -/
def DEFAULT_SAFE_COMMANDS : List String :=
  ["ls", "cat", "head", "tail", "wc", "date", "whoami", "echo",
   "pwd", "which", "git", "python", "python3", "node", "npm", "npx",
   "uv", "pip", "find", "grep", "sort", "uniq", "tr", "cut", "env"]

/-- Embedding of `PermissionManager.check` (permissions/manager.py); the
persisted approvals value is passed explicitly (the code re-loads it from
disk on every call). -/
def check (safe_commands : List String) (approvals : Approvals) (command : String) :
    String :=
  if baseCommand command ∈ safe_commands then "safe"
  else if command ∈ approvals.allowed then "approved"
  else "needs_approval"

/-- The permission branch of `run_command` (tools/shell.py): whether the
shell tool invokes `request_approval`. -/
def shellRequestsApproval (safe_commands : List String) (approvals : Approvals)
    (command : String) : Bool :=
  check safe_commands approvals command == "needs_approval"

/-- C10: `check` never consults the denied list — its result is identical
for any two denied lists — and a command whose base token is not in the
safe set and whose exact string is not in the allowed list yields
"needs_approval" (so the shell tool calls `request_approval` again) even
when the command is recorded in the denied list. -/
theorem c10_check_ignores_denied (safe : List String) (allowed d1 d2 : List String)
    (cmd : String) :
    check safe ⟨allowed, d1⟩ cmd = check safe ⟨allowed, d2⟩ cmd ∧
    (baseCommand cmd ∉ safe → cmd ∉ allowed →
      check safe ⟨allowed, d1⟩ cmd = "needs_approval" ∧
      shellRequestsApproval safe ⟨allowed, d1⟩ cmd = true) := by
  constructor
  · rfl
  · intro h1 h2
    have hc : check safe ⟨allowed, d1⟩ cmd = "needs_approval" := by
      unfold check
      rw [if_neg h1, if_neg h2]
    exact ⟨hc, by rw [shellRequestsApproval, hc]; rfl⟩

/-- Witness for C10: a command present in the denied list still comes
back as "needs_approval". -/
theorem c10_witness :
    check DEFAULT_SAFE_COMMANDS ⟨[], ["rm -rf /tmp/x"]⟩ "rm -rf /tmp/x" =
      "needs_approval" :=
  ((c10_check_ignores_denied DEFAULT_SAFE_COMMANDS [] ["rm -rf /tmp/x"] []
    "rm -rf /tmp/x").2 (by decide) (by decide)).1

end OpenClaw
